import Mathlib

/-!
Shallow embedding of the scoring core of `evaluation/evaluation.py`
(modified BLEU precision/aggregation and the NIST-style information value),
together with proofs settling the specification's claims about it.

Modelling conventions:
* token sequences are `List α` for an arbitrary type `α` with decidable
  equality (the Python code works on lists of words);
* `nltk.util.ngrams` composed with `collections.Counter` is modelled by the
  list of sliding windows together with `List.count` / `List.dedup`;
* a Python `dict` is modelled as a function into `Option ℕ`; a lookup of a
  missing key (`KeyError`) is a `none` which propagates to the caller, so a
  function that can raise returns `Option _`;
* Python's `fractions.Fraction` is modelled by `ℚ`, which shares its
  invariant of being stored in lowest terms (`.numerator`/`.denominator`
  correspond to `Rat.num`/`Rat.den`);
* the float constants and `np.log2` / `math.log` / `math.exp` are modelled
  over `ℝ` (exact rational arithmetic feeding real log/exp).
-/

namespace TextGen

variable {α : Type*} [DecidableEq α]

/-- Model of `nltk.util.ngrams(sequence, n)`: the list of all contiguous windows of
length `n` (as `zip(seq, seq[1:], ..., seq[n-1:])`; for `n = 0` the empty
`zip()` yields nothing).  `Counter(ngrams(s, n))` is recovered as
`(ngramsList s n).count g` for each key `g`; note the Python guard
`if len(hypothesis) >= n else Counter()` is automatic here, since there are
no windows when the sequence is shorter than `n`. -/
def ngramsList (s : List α) (n : ℕ) : List (List α) :=
  if n = 0 then [] else (List.range (s.length + 1 - n)).map fun i => (s.drop i).take n

/-- The body of the loop `for reference in references:` in
`modified_precision` (lines 137-141): for every n-gram key of the
hypothesis `Counter`, the dict entry becomes
`max(max_counts.get(ngram, 0), reference_counts[ngram])`; other keys are
untouched. -/
def max_counts_step (n : ℕ) (counts_keys : List (List α))
    (m : List α → Option ℕ) (reference : List α) : List α → Option ℕ :=
  fun g =>
    if g ∈ counts_keys then
      some (max ((m g).getD 0) ((ngramsList reference n).count g))
    else m g

/-- The dict `max_counts` after the whole loop, starting from the empty
dict `{}` (a missing key is `none`). -/
def max_counts (references : List (List α)) (n : ℕ)
    (counts_keys : List (List α)) : List α → Option ℕ :=
  references.foldl (max_counts_step n counts_keys) fun _ => none

/-- The comprehension
`clipped_counts = {ngram: min(count, max_counts[ngram]) for ngram, count in counts.items()}`
(lines 144-145), keeping the list of clipped values.  The subscript
`max_counts[ngram]` raises `KeyError` when the key is absent, which the
`Option.map`/`mapM` combination propagates as `none`. -/
def clipped_counts (references : List (List α)) (hypothesis : List α)
    (n : ℕ) : Option (List ℕ) :=
  let counts := ngramsList hypothesis n
  counts.dedup.mapM fun g =>
    (max_counts references n counts.dedup g).map fun m => min (counts.count g) m

/-- Model of `modified_precision(references, hypothesis, n)` (lines 114-152):
`numerator = sum(clipped_counts.values())`,
`denominator = max(1, sum(counts.values()))`, returning
`Fraction(numerator, denominator)` — modelled as the rational
`numerator / denominator` (`ℚ`, like `Fraction`, is kept in lowest terms). -/
def modified_precision (references : List (List α)) (hypothesis : List α)
    (n : ℕ) : Option ℚ :=
  (clipped_counts references hypothesis n).map fun clipped =>
    ((clipped.sum : ℚ)) / ((max 1 (ngramsList hypothesis n).length : ℕ) : ℚ)

/-- Model of `modified_bleu(references, hypothesis, weights)` (lines 74-111):
per-order precisions `p_i = modified_precision(references, hypothesis, i)`
for `i = 1..len(weights)`; if the order-1 numerator is `0` (a missing
`Counter` key reads as `0`, hence the `headD 0`) the score is `0`;
otherwise `exp(fsum(w_i * log(p_i)))` over the terms with nonzero
numerator.  A `KeyError` from `modified_precision` propagates (`none`). -/
noncomputable def modified_bleu (references : List (List α))
    (hypothesis : List α) (weights : List ℝ) : Option ℝ :=
  match (List.range weights.length).mapM
      (fun i => modified_precision references hypothesis (i + 1)) with
  | none => none
  | some p_n =>
    if (p_n.map Rat.num).headD 0 = 0 then some 0
    else
      some (Real.exp ((((weights.zip p_n).filter fun wp => wp.2.num ≠ 0).map
        fun wp => wp.1 * Real.log ((wp.2 : ℚ) : ℝ)).sum))

/-- Python's `str.count(sub)` for a nonempty pattern: the number of
non-overlapping occurrences, scanning left to right.  The fuel is the
remaining string length, which bounds the number of steps (every step
consumes at least one character). -/
def countFromFuel (pat : List Char) : ℕ → List Char → ℕ
  | _, [] => 0
  | 0, _ :: _ => 0
  | fuel + 1, c :: rest =>
    if pat.isPrefixOf (c :: rest) then
      countFromFuel pat fuel ((c :: rest).drop pat.length) + 1
    else countFromFuel pat fuel rest

/-- Python's `str.count(sub)`: for the empty pattern it returns
`len(s) + 1`; otherwise the non-overlapping occurrence count. -/
def str_count (s pat : List Char) : ℕ :=
  if pat = [] then s.length + 1 else countFromFuel pat s.length s

/-- Model of `get_information_value(words)` (lines 45-71).  The module-level
`reference_data` (initially `None`) is passed explicitly as an
`Option (List Char)`; `None` triggers
`raise ValueError("No reference data found")`.  Note the code sets
`words_k1 = ' '.join(words)` (the FULL n-gram) and
`words_k2 = ' '.join(words[:-1])` (the (n-1)-gram), then returns
`np.log2((0.1 + count(words_k1)) / (0.1 + count(words_k2)))`.
The memo dict `info_value` only caches this value per joined n-gram and is
consulted after the `None` check, so it does not change the input/output
behaviour modelled here. -/
noncomputable def get_information_value (reference_data : Option (List Char))
    (words : List (List Char)) : Except String ℝ :=
  match reference_data with
  | none => Except.error ("No reference data found")
  | some reference =>
    let words_k1 := List.intercalate ([' ']) words
    let words_k2 := List.intercalate ([' ']) words.dropLast
    let k1 : ℚ := 1 / 10 + (str_count reference words_k1 : ℚ)
    let k2 : ℚ := 1 / 10 + (str_count reference words_k2 : ℚ)
    Except.ok (Real.logb 2 ((k1 / k2 : ℚ) : ℝ))

/-- The net value stored by the `max_counts` loop for a hypothesis n-gram:
the maximum of its count over all reference segments (`0` if absent from
every segment). -/
def maxRefCount (references : List (List α)) (n : ℕ) (g : List α) : ℕ :=
  (references.map fun r => (ngramsList r n).count g).foldr max 0

/-! Helper lemmas about the embedded operations. -/

lemma mapM_eq_some_map {β γ : Type*} (f : β → Option γ) (u : β → γ) :
    ∀ l : List β, (∀ a ∈ l, f a = some (u a)) → l.mapM f = some (l.map u) := by
  intro l
  induction l with
  | nil => intro _; rfl
  | cons a t ih =>
    intro h
    rw [List.mapM_cons, h a (List.mem_cons_self a t), ih fun b hb => h b (List.mem_cons_of_mem a hb)]
    rfl

lemma mapM_eq_none_of_mem {β γ : Type*} (f : β → Option γ) :
    ∀ l : List β, (∃ a ∈ l, f a = none) → l.mapM f = none := by
  intro l
  induction l with
  | nil => rintro ⟨a, ha, -⟩; exact absurd ha (List.not_mem_nil a)
  | cons b t ih =>
    rintro ⟨a, ha, hfa⟩
    rw [List.mapM_cons]
    rcases List.mem_cons.1 ha with h | h
    · subst h; rw [hfa]; rfl
    · cases hfb : f b with
      | none => rfl
      | some x => rw [ih ⟨a, h, hfa⟩]; rfl

lemma mapM_exists_of_forall_isSome {β γ : Type*} (f : β → Option γ) :
    ∀ l : List β, (∀ a ∈ l, (f a).isSome) → ∃ L, l.mapM f = some L := by
  intro l
  induction l with
  | nil => intro _; exact ⟨[], rfl⟩
  | cons a t ih =>
    intro h
    obtain ⟨x, hx⟩ := Option.isSome_iff_exists.1 (h a (List.mem_cons_self a t))
    obtain ⟨L, hL⟩ := ih fun b hb => h b (List.mem_cons_of_mem a hb)
    exact ⟨x :: L, by rw [List.mapM_cons, hx, hL]; rfl⟩

lemma le_foldr_max {x : ℕ} : ∀ {l : List ℕ}, x ∈ l → x ≤ l.foldr max 0 := by
  intro l
  induction l with
  | nil => intro h; exact absurd h (List.not_mem_nil x)
  | cons a t ih =>
    intro h
    rcases List.mem_cons.1 h with h | h
    · subst h; exact Nat.le_max_left _ _
    · exact le_trans (ih h) (Nat.le_max_right _ _)

lemma foldr_max_append (l : List ℕ) (x : ℕ) :
    (l ++ [x]).foldr max 0 = max (l.foldr max 0) x := by
  induction l with
  | nil => simp
  | cons a t ih => simp [ih, Nat.max_assoc]

lemma maxRefCount_append (references : List (List α)) (r : List α) (n : ℕ)
    (g : List α) :
    maxRefCount (references ++ [r]) n g =
      max (maxRefCount references n g) ((ngramsList r n).count g) := by
  unfold maxRefCount
  rw [List.map_append, List.map_singleton, foldr_max_append]

lemma max_counts_loop_eq (n : ℕ) (keys : List (List α)) :
    ∀ (refs : List (List α)) (m : List α → Option ℕ) (g : List α),
      List.foldl (max_counts_step n keys) m refs g =
        if g ∈ keys ∧ refs ≠ [] then
          some (max ((m g).getD 0) (maxRefCount refs n g))
        else m g := by
  intro refs
  induction refs with
  | nil => intro m g; simp
  | cons r rest ih =>
    intro m g
    rw [List.foldl_cons, ih]
    by_cases hg : g ∈ keys
    · have hstep : max_counts_step n keys m r g =
          some (max ((m g).getD 0) ((ngramsList r n).count g)) := by
        simp [max_counts_step, hg]
      by_cases hrest : rest = []
      · subst hrest
        simp [hg, hstep, maxRefCount]
      · simp only [hg, hrest, true_and, if_pos, ne_eq, not_false_iff,
          List.cons_ne_nil, hstep, Option.getD_some, maxRefCount, List.map_cons,
          List.foldr_cons]
        rw [max_assoc]
    · have hstep : max_counts_step n keys m r g = m g := by
        simp [max_counts_step, hg]
      simp [hg, hstep]

lemma max_counts_eq (references : List (List α)) (n : ℕ)
    (keys : List (List α)) (g : List α) :
    max_counts references n keys g =
      if g ∈ keys ∧ references ≠ [] then some (maxRefCount references n g)
      else none := by
  unfold max_counts
  rw [max_counts_loop_eq]
  simp

section DedupCount

variable {β : Type*} [DecidableEq β] [BEq β] [LawfulBEq β]

lemma sum_map_ite_of_nodup (a : β) :
    ∀ m : List β, m.Nodup →
      (m.map fun g => if a = g then 1 else 0).sum = if a ∈ m then 1 else 0 := by
  intro m
  induction m with
  | nil => intro _; simp
  | cons b mt ih =>
    intro hm
    obtain ⟨hb, hmt⟩ := List.nodup_cons.1 hm
    simp only [List.map_cons, List.sum_cons, ih hmt, List.mem_cons]
    by_cases h : a = b
    · subst h
      simp [hb]
    · simp [h]

lemma sum_map_count_cons (a : β) (t : List β) :
    ∀ m : List β, (m.map fun g => (a :: t).count g).sum =
      (m.map fun g => t.count g).sum + (m.map fun g => if a = g then 1 else 0).sum := by
  intro m
  induction m with
  | nil => rfl
  | cons b mt ih =>
    simp only [List.map_cons, List.sum_cons]
    rw [ih, List.count_cons]
    have hbeq : (if (a == b) = true then 1 else 0) = (if a = b then 1 else 0) := by
      by_cases h : a = b <;> simp [h]
    omega

lemma sum_map_count_dedup (l : List β) :
    (l.dedup.map fun g => l.count g).sum = l.length := by
  induction l with
  | nil => rfl
  | cons a t ih =>
    by_cases hmem : a ∈ t
    · rw [List.dedup_cons_of_mem hmem, sum_map_count_cons, ih,
        sum_map_ite_of_nodup a t.dedup (List.nodup_dedup t)]
      simp [List.mem_dedup, hmem]
    · rw [List.dedup_cons_of_not_mem hmem]
      simp only [List.map_cons, List.sum_cons]
      rw [sum_map_count_cons, ih, sum_map_ite_of_nodup a t.dedup (List.nodup_dedup t)]
      have h0 : t.count a = 0 := List.count_eq_zero_of_not_mem hmem
      have h1 : (a :: t).count a = t.count a + 1 := List.count_cons_self a t
      have h2 : a ∉ t.dedup := fun hc => hmem (List.mem_dedup.1 hc)
      simp only [List.length_cons, h1, h0, if_neg h2]
      omega

end DedupCount

omit [DecidableEq α] in
lemma ngramsList_eq_nil_of_short {s : List α} {n : ℕ} (h : s.length < n) :
    ngramsList s n = [] := by
  unfold ngramsList
  rw [if_neg (by omega)]
  have h0 : s.length + 1 - n = 0 := by omega
  rw [h0]
  rfl

omit [DecidableEq α] in
lemma ngramsList_length {s : List α} {n : ℕ} (h : 1 ≤ n) :
    (ngramsList s n).length = s.length + 1 - n := by
  unfold ngramsList
  rw [if_neg (by omega)]
  simp

omit [DecidableEq α] in
lemma ngramsList_one_eq_nil {s : List α} : ngramsList s 1 = [] ↔ s = [] := by
  constructor
  · intro h
    have hl := congrArg List.length h
    rw [ngramsList_length le_rfl] at hl
    simp only [List.length_nil] at hl
    exact List.length_eq_zero.1 (by omega)
  · rintro rfl
    rfl

lemma clipped_counts_of_ne_nil (references : List (List α)) (hypothesis : List α)
    (n : ℕ) (h : references ≠ []) :
    clipped_counts references hypothesis n =
      some ((ngramsList hypothesis n).dedup.map fun g =>
        min ((ngramsList hypothesis n).count g) (maxRefCount references n g)) := by
  simp only [clipped_counts]
  apply mapM_eq_some_map
  intro g hg
  rw [max_counts_eq]
  simp [hg, h]

lemma clipped_counts_nil_left (hypothesis : List α) (n : ℕ) :
    clipped_counts ([] : List (List α)) hypothesis n =
      if ngramsList hypothesis n = [] then some [] else none := by
  simp only [clipped_counts]
  by_cases h : ngramsList hypothesis n = []
  · rw [if_pos h, h]
    rfl
  · rw [if_neg h]
    apply mapM_eq_none_of_mem
    obtain ⟨g, hg⟩ : ∃ g, g ∈ (ngramsList hypothesis n).dedup := by
      cases hd : (ngramsList hypothesis n).dedup with
      | nil => exact absurd ((List.dedup_eq_nil _).1 hd) h
      | cons a t => exact ⟨a, hd ▸ List.mem_cons_self a t⟩
    refine ⟨g, hg, ?_⟩
    rw [max_counts_eq]
    simp

lemma clipped_counts_of_ngrams_nil {references : List (List α)}
    {hypothesis : List α} {n : ℕ} (h : ngramsList hypothesis n = []) :
    clipped_counts references hypothesis n = some [] := by
  simp only [clipped_counts, h]
  rfl

lemma modified_precision_of_ngrams_nil {references : List (List α)}
    {hypothesis : List α} {n : ℕ} (h : ngramsList hypothesis n = []) :
    modified_precision references hypothesis n = some 0 := by
  unfold modified_precision
  rw [clipped_counts_of_ngrams_nil h, h]
  simp

lemma modified_precision_of_ne_nil (references : List (List α))
    (hypothesis : List α) (n : ℕ) (h : references ≠ []) :
    modified_precision references hypothesis n =
      some (((((ngramsList hypothesis n).dedup.map fun g =>
          min ((ngramsList hypothesis n).count g) (maxRefCount references n g)).sum : ℕ) : ℚ) /
        ((max 1 (ngramsList hypothesis n).length : ℕ) : ℚ)) := by
  unfold modified_precision
  rw [clipped_counts_of_ne_nil references hypothesis n h]
  rfl

lemma clipped_map_sum_le (references : List (List α)) (hypothesis : List α) (n : ℕ) :
    ((ngramsList hypothesis n).dedup.map fun g =>
        min ((ngramsList hypothesis n).count g) (maxRefCount references n g)).sum ≤
      (ngramsList hypothesis n).length := by
  calc ((ngramsList hypothesis n).dedup.map fun g =>
          min ((ngramsList hypothesis n).count g) (maxRefCount references n g)).sum ≤
      ((ngramsList hypothesis n).dedup.map fun g => (ngramsList hypothesis n).count g).sum :=
        List.sum_le_sum fun g _ => Nat.min_le_left _ _
    _ = (ngramsList hypothesis n).length := sum_map_count_dedup _

lemma mapM_congr {β γ : Type*} (f g : β → Option γ) :
    ∀ l : List β, (∀ a ∈ l, f a = g a) → l.mapM f = l.mapM g := by
  intro l
  induction l with
  | nil => intro _; rfl
  | cons a t ih =>
    intro h
    rw [List.mapM_cons, List.mapM_cons, h a (List.mem_cons_self a t),
      ih fun b hb => h b (List.mem_cons_of_mem a hb)]

lemma modified_precision_nil_left (hypothesis : List α) (n : ℕ) :
    modified_precision ([] : List (List α)) hypothesis n =
      if ngramsList hypothesis n = [] then some 0 else none := by
  by_cases h : ngramsList hypothesis n = []
  · rw [if_pos h]
    exact modified_precision_of_ngrams_nil h
  · rw [if_neg h]
    unfold modified_precision
    rw [clipped_counts_nil_left, if_neg h]
    rfl

lemma modified_precision_isSome_of_ok (references : List (List α))
    (hypothesis : List α) (n : ℕ) (h : references ≠ [] ∨ hypothesis = []) :
    ∃ q, modified_precision references hypothesis n = some q := by
  rcases h with h | rfl
  · exact ⟨_, modified_precision_of_ne_nil references hypothesis n h⟩
  · refine ⟨0, modified_precision_of_ngrams_nil ?_⟩
    match n with
    | 0 => rfl
    | m + 1 => exact ngramsList_eq_nil_of_short (by simp)

lemma hyp_eq_nil_of_mp_nil_refs {hypothesis : List α} {p : ℚ}
    (h : modified_precision ([] : List (List α)) hypothesis 1 = some p) :
    hypothesis = [] := by
  by_contra hne
  have hng : ngramsList hypothesis 1 ≠ [] := fun hc => hne (ngramsList_one_eq_nil.1 hc)
  rw [modified_precision_nil_left, if_neg hng] at h
  exact Option.noConfusion h

lemma modified_precision_append_no_share (references : List (List α))
    (r : List α) (hypothesis : List α) (n : ℕ) (hne : references ≠ [])
    (hns : ∀ g ∈ ngramsList hypothesis n, g ∉ ngramsList r n) :
    modified_precision (references ++ [r]) hypothesis n =
      modified_precision references hypothesis n := by
  have hne2 : references ++ [r] ≠ [] := by simp
  rw [modified_precision_of_ne_nil references hypothesis n hne,
    modified_precision_of_ne_nil (references ++ [r]) hypothesis n hne2]
  have hmap : ((ngramsList hypothesis n).dedup.map fun g =>
      min ((ngramsList hypothesis n).count g) (maxRefCount (references ++ [r]) n g)) =
      (ngramsList hypothesis n).dedup.map fun g =>
        min ((ngramsList hypothesis n).count g) (maxRefCount references n g) := by
    apply List.map_congr_left
    intro g hg
    have hzero : (ngramsList r n).count g = 0 :=
      List.count_eq_zero_of_not_mem (hns g (List.mem_dedup.1 hg))
    rw [maxRefCount_append, hzero]
    simp
  rw [hmap]

lemma clipped_counts_append_mono (references : List (List α)) (r : List α)
    (hypothesis : List α) (n : ℕ) (L : List ℕ)
    (h : clipped_counts references hypothesis n = some L) :
    ∃ L', clipped_counts (references ++ [r]) hypothesis n = some L' ∧
      L.sum ≤ L'.sum := by
  by_cases hr : references = []
  · subst hr
    rw [clipped_counts_nil_left] at h
    by_cases hg : ngramsList hypothesis n = []
    · rw [if_pos hg] at h
      refine ⟨[], ?_, ?_⟩
      · exact clipped_counts_of_ngrams_nil hg
      · rw [← Option.some.inj h]
    · rw [if_neg hg] at h
      exact Option.noConfusion h
  · have hne2 : references ++ [r] ≠ [] := by simp
    rw [clipped_counts_of_ne_nil references hypothesis n hr] at h
    rw [clipped_counts_of_ne_nil (references ++ [r]) hypothesis n hne2]
    refine ⟨_, rfl, ?_⟩
    rw [← Option.some.inj h]
    apply List.sum_le_sum
    intro g _
    rw [maxRefCount_append]
    exact min_le_min (le_refl _) (le_max_left _ _)

lemma modified_bleu_append_no_share (references : List (List α)) (r : List α)
    (hypothesis : List α) (weights : List ℝ) (hne : references ≠ [])
    (hns : ∀ i ∈ List.range weights.length,
      ∀ g ∈ ngramsList hypothesis (i + 1), g ∉ ngramsList r (i + 1)) :
    modified_bleu (references ++ [r]) hypothesis weights =
      modified_bleu references hypothesis weights := by
  have hmapM : (List.range weights.length).mapM
      (fun i => modified_precision (references ++ [r]) hypothesis (i + 1)) =
      (List.range weights.length).mapM
        (fun i => modified_precision references hypothesis (i + 1)) :=
    mapM_congr _ _ _ fun i hi =>
      modified_precision_append_no_share references r hypothesis (i + 1) hne (hns i hi)
  unfold modified_bleu
  rw [hmapM]

lemma bleu_mapM_cons (references : List (List α)) (hypothesis : List α)
    (w : ℝ) (ws : List ℝ) (p₁ : ℚ)
    (h1 : modified_precision references hypothesis 1 = some p₁)
    (hok : references ≠ [] ∨ hypothesis = []) :
    ∃ L, (List.range (w :: ws).length).mapM
        (fun i => modified_precision references hypothesis (i + 1)) =
      some (p₁ :: L) := by
  obtain ⟨L, hL⟩ := mapM_exists_of_forall_isSome
    (fun i => modified_precision references hypothesis (i + 1))
    ((List.range ws.length).map Nat.succ)
    (fun a _ => by
      obtain ⟨q, hq⟩ := modified_precision_isSome_of_ok references hypothesis (a + 1) hok
      simp only [hq, Option.isSome_some])
  refine ⟨L, ?_⟩
  rw [List.length_cons, List.range_succ_eq_map, List.mapM_cons, h1, hL]
  rfl

lemma modified_precision_eval {references : List (List α)} {hypothesis : List α}
    {n : ℕ} {L : List ℕ} {k : ℕ}
    (hc : clipped_counts references hypothesis n = some L)
    (hk : (ngramsList hypothesis n).length = k) :
    modified_precision references hypothesis n =
      some (((L.sum : ℕ) : ℚ) / ((max 1 k : ℕ) : ℚ)) := by
  unfold modified_precision
  rw [hc, hk]
  rfl

/-! Theorems settling the claims. -/

/-- C2 counterexample: with an empty reference list and the hypothesis `[0]`
(which has one 1-gram), `modified_precision` does NOT return normally with
numerator 0: the lookup `max_counts[ngram]` on the empty dict raises
`KeyError` (modelled as `none`). -/
theorem C2_counterexample :
    modified_precision ([] : List (List ℕ)) [0] 1 = none := by decide

/-- C2 amended: with an empty reference list, `modified_precision` returns
normally (with numerator 0, i.e. the fraction 0/1) exactly when the
hypothesis contains no n-gram of order `n`; otherwise the
`max_counts[ngram]` lookup raises `KeyError` instead of returning. -/
theorem C2_empty_references_behaviour (hypothesis : List α) (n : ℕ) :
    modified_precision ([] : List (List α)) hypothesis n =
      if ngramsList hypothesis n = [] then some 0 else none :=
  modified_precision_nil_left hypothesis n

lemma modified_bleu_eq_zero_of_order1_num_zero (references : List (List α))
    (hypothesis : List α) (weights : List ℝ) (p₁ : ℚ)
    (h1 : modified_precision references hypothesis 1 = some p₁)
    (h0 : p₁.num = 0) :
    modified_bleu references hypothesis weights = some 0 := by
  cases weights with
  | nil =>
    have h : (List.range (([] : List ℝ)).length).mapM
        (fun i => modified_precision references hypothesis (i + 1)) =
        some ([] : List ℚ) := rfl
    unfold modified_bleu
    rw [h]
    simp
  | cons w ws =>
    have hok : references ≠ [] ∨ hypothesis = [] := by
      by_cases hr : references = []
      · subst hr
        exact Or.inr (hyp_eq_nil_of_mp_nil_refs h1)
      · exact Or.inl hr
    obtain ⟨L, hL⟩ := bleu_mapM_cons references hypothesis w ws p₁ h1 hok
    unfold modified_bleu
    rw [hL]
    simp [h0]

/-- C5: if the order-1 precision was computed with numerator 0 (no unigram
overlap), `modified_bleu` returns exactly 0, regardless of any higher-order
matches. -/
theorem C5_zero_order1_numerator_gives_zero (references : List (List α))
    (hypothesis : List α) (weights : List ℝ) (p₁ : ℚ)
    (h1 : modified_precision references hypothesis 1 = some p₁)
    (h0 : p₁.num = 0) :
    modified_bleu references hypothesis weights = some 0 :=
  modified_bleu_eq_zero_of_order1_num_zero references hypothesis weights p₁ h1 h0

/-- C5 witness: hypothesis `[0]` against reference `[1]` has unigram
numerator 0, and the aggregate score is 0. -/
theorem C5_witness :
    modified_precision ([[1]] : List (List ℕ)) [0] 1 = some 0 ∧ (0 : ℚ).num = 0 ∧
      modified_bleu ([[1]] : List (List ℕ)) [0] [(1 : ℝ)] = some 0 := by
  have hmp : modified_precision ([[1]] : List (List ℕ)) [0] 1 = some 0 := by
    rw [@modified_precision_eval ℕ _ [[1]] [0] 1 [0] 1 (by decide) (by decide)]
    norm_num
  exact ⟨hmp, rfl, C5_zero_order1_numerator_gives_zero [[1]] [0] [(1 : ℝ)] 0 hmp rfl⟩

/-- C4: when the order-1 numerator is nonzero (and at least one weight is
configured), `modified_bleu` returns `exp` of the weighted sum of
`log p_i` restricted to the orders whose precision numerator is nonzero —
zero-numerator terms are omitted rather than passed to `log` — and the
resulting score is strictly positive, so zero matches at a higher order do
not force the score to 0. -/
theorem C4_skips_zero_numerator_terms (references : List (List α))
    (hypothesis : List α) (weights : List ℝ) (p₁ : ℚ)
    (hw : weights ≠ [])
    (h1 : modified_precision references hypothesis 1 = some p₁)
    (hnz : p₁.num ≠ 0) :
    ∃ ps, (List.range weights.length).mapM
        (fun i => modified_precision references hypothesis (i + 1)) = some ps ∧
      modified_bleu references hypothesis weights =
        some (Real.exp ((((weights.zip ps).filter fun wp => wp.2.num ≠ 0).map
          fun wp => wp.1 * Real.log ((wp.2 : ℚ) : ℝ)).sum)) ∧
      0 < Real.exp ((((weights.zip ps).filter fun wp => wp.2.num ≠ 0).map
          fun wp => wp.1 * Real.log ((wp.2 : ℚ) : ℝ)).sum) := by
  have hok : references ≠ [] ∨ hypothesis = [] := by
    by_cases hr : references = []
    · subst hr
      exact Or.inr (hyp_eq_nil_of_mp_nil_refs h1)
    · exact Or.inl hr
  cases weights with
  | nil => exact absurd rfl hw
  | cons w ws =>
    obtain ⟨L, hL⟩ := bleu_mapM_cons references hypothesis w ws p₁ h1 hok
    refine ⟨p₁ :: L, hL, ?_, Real.exp_pos _⟩
    unfold modified_bleu
    rw [hL]
    simp [hnz]

/-- C4 witness: hypothesis `[0]` equal to the single reference, one weight;
the order-1 numerator is 1 ≠ 0 and the score is the (positive) exponential
form. -/
theorem C4_witness :
    ([(1 : ℝ)] : List ℝ) ≠ [] ∧
      modified_precision ([[0]] : List (List ℕ)) [0] 1 = some 1 ∧ (1 : ℚ).num ≠ 0 ∧
      ∃ ps, (List.range ([(1 : ℝ)] : List ℝ).length).mapM
          (fun i => modified_precision ([[0]] : List (List ℕ)) [0] (i + 1)) = some ps ∧
        modified_bleu ([[0]] : List (List ℕ)) [0] [(1 : ℝ)] =
          some (Real.exp (((([(1 : ℝ)].zip ps).filter fun wp => wp.2.num ≠ 0).map
            fun wp => wp.1 * Real.log ((wp.2 : ℚ) : ℝ)).sum)) ∧
        0 < Real.exp (((([(1 : ℝ)].zip ps).filter fun wp => wp.2.num ≠ 0).map
            fun wp => wp.1 * Real.log ((wp.2 : ℚ) : ℝ)).sum) := by
  have hmp : modified_precision ([[0]] : List (List ℕ)) [0] 1 = some 1 := by
    rw [@modified_precision_eval ℕ _ [[0]] [0] 1 [1] 1 (by decide) (by decide)]
    norm_num
  exact ⟨by simp, hmp, by norm_num,
    C4_skips_zero_numerator_terms [[0]] [0] [(1 : ℝ)] 1 (by simp) hmp (by norm_num)⟩

/-- C6: for any reference list and any order `n ≥ 1`, a hypothesis shorter
than `n` yields the fraction 0/1 (numerator 0, denominator floored at 1) —
precision 0, not a division-by-zero error. -/
theorem C6_short_hypothesis (references : List (List α)) (hypothesis : List α)
    (n : ℕ) (_hn : 1 ≤ n) (hshort : hypothesis.length < n) :
    ∃ q, modified_precision references hypothesis n = some q ∧
      q.num = 0 ∧ q.den = 1 :=
  ⟨0, modified_precision_of_ngrams_nil (ngramsList_eq_nil_of_short hshort), rfl, rfl⟩

/-- C6 witness: the empty hypothesis at order 1 against reference `[0]`. -/
theorem C6_witness :
    1 ≤ 1 ∧ ([] : List ℕ).length < 1 ∧
      ∃ q, modified_precision ([[0]] : List (List ℕ)) [] 1 = some q ∧
        q.num = 0 ∧ q.den = 1 :=
  ⟨le_rfl, by decide, C6_short_hypothesis [[0]] [] 1 le_rfl (by decide)⟩

/-- C7: whenever `modified_precision` returns a fraction, its numerator is
at most its denominator, which is at most `max(1, number of n-grams of the
hypothesis)` (the returned `Fraction` is in lowest terms, so its stored
denominator can only shrink from the raw `max(1, sum of counts)`). -/
theorem C7_num_le_den_le_ngrams (references : List (List α)) (hypothesis : List α)
    (n : ℕ) (q : ℚ) (_hn : 1 ≤ n)
    (h : modified_precision references hypothesis n = some q) :
    q.num ≤ (q.den : ℤ) ∧ q.den ≤ max 1 (ngramsList hypothesis n).length := by
  by_cases hr : references = []
  · subst hr
    rw [modified_precision_nil_left] at h
    by_cases hg : ngramsList hypothesis n = []
    · rw [if_pos hg] at h
      have hq : q = 0 := (Option.some.inj h).symm
      subst hq
      exact ⟨by norm_num, le_max_left _ _⟩
    · rw [if_neg hg] at h
      exact Option.noConfusion h
  · rw [modified_precision_of_ne_nil references hypothesis n hr] at h
    have hq : q = ((((ngramsList hypothesis n).dedup.map fun g =>
        min ((ngramsList hypothesis n).count g) (maxRefCount references n g)).sum : ℕ) : ℚ) /
        ((max 1 (ngramsList hypothesis n).length : ℕ) : ℚ) := (Option.some.inj h).symm
    have hSD : ((ngramsList hypothesis n).dedup.map fun g =>
        min ((ngramsList hypothesis n).count g) (maxRefCount references n g)).sum ≤
        max 1 (ngramsList hypothesis n).length :=
      le_trans (clipped_map_sum_le references hypothesis n) (le_max_right _ _)
    have hDpos : 0 < max 1 (ngramsList hypothesis n).length :=
      lt_of_lt_of_le Nat.one_pos (le_max_left _ _)
    constructor
    · have hq1 : q ≤ 1 := by
        rw [hq]
        rw [div_le_one (by exact_mod_cast hDpos)]
        exact_mod_cast hSD
      have hden : (0 : ℚ) < (q.den : ℚ) := by exact_mod_cast q.den_pos
      have hnd := Rat.num_div_den q
      rw [eq_comm, eq_div_iff (ne_of_gt hden)] at hnd
      have hle : (q.num : ℚ) ≤ (q.den : ℚ) := by
        calc (q.num : ℚ) = q * (q.den : ℚ) := hnd.symm
          _ ≤ 1 * (q.den : ℚ) := mul_le_mul_of_nonneg_right hq1 (le_of_lt hden)
          _ = (q.den : ℚ) := one_mul _
      exact_mod_cast hle
    · have heq : Rat.divInt
          (((((ngramsList hypothesis n).dedup.map fun g =>
            min ((ngramsList hypothesis n).count g) (maxRefCount references n g)).sum : ℕ) : ℤ))
          (((max 1 (ngramsList hypothesis n).length : ℕ) : ℤ)) = q := by
        rw [Rat.divInt_eq_div, hq]
        simp only [Int.cast_natCast]
      have hdvd := Rat.den_dvd
        (((((ngramsList hypothesis n).dedup.map fun g =>
          min ((ngramsList hypothesis n).count g) (maxRefCount references n g)).sum : ℕ) : ℤ))
        (((max 1 (ngramsList hypothesis n).length : ℕ) : ℤ))
      rw [heq] at hdvd
      have hdvd2 : q.den ∣ max 1 (ngramsList hypothesis n).length := by
        exact_mod_cast hdvd
      exact Nat.le_of_dvd hDpos hdvd2

/-- C7 witness: reference `[0]`, hypothesis `[0]`, order 1: fraction 1/1,
indeed num ≤ den ≤ max(1, 1). -/
theorem C7_witness :
    1 ≤ 1 ∧ modified_precision ([[0]] : List (List ℕ)) [0] 1 = some 1 ∧
      ((1 : ℚ).num ≤ ((1 : ℚ).den : ℤ) ∧
        (1 : ℚ).den ≤ max 1 (ngramsList ([0] : List ℕ) 1).length) := by
  have hmp : modified_precision ([[0]] : List (List ℕ)) [0] 1 = some 1 := by
    rw [@modified_precision_eval ℕ _ [[0]] [0] 1 [1] 1 (by decide) (by decide)]
    norm_num
  exact ⟨le_rfl, hmp, C7_num_le_den_le_ngrams [[0]] [0] 1 1 le_rfl hmp⟩

/-- C3 counterexample: hypothesis identical to the single reference segment
`[0, 1]` has k = 2 unigrams, but `modified_precision` returns the reduced
`Fraction` 1/1, not the pair (2, 2) the claim asserts. -/
theorem C3_counterexample :
    modified_precision ([[0, 1]] : List (List ℕ)) [0, 1] 1 = some 1 ∧
      (ngramsList ([0, 1] : List ℕ) 1).length = 2 ∧
      ((modified_precision ([[0, 1]] : List (List ℕ)) [0, 1] 1).map fun q =>
        (q.num, q.den)) ≠ some ((2 : ℤ), (2 : ℕ)) := by
  have hmp : modified_precision ([[0, 1]] : List (List ℕ)) [0, 1] 1 = some 1 := by
    rw [@modified_precision_eval ℕ _ [[0, 1]] [0, 1] 1 [1, 1] 2 (by decide) (by decide)]
    norm_num
  refine ⟨hmp, by decide, ?_⟩
  rw [hmp]
  decide

/-- C3 amended: if the hypothesis is identical to one reference segment and
`1 ≤ n ≤ len(hypothesis)`, `modified_precision` returns the fraction of
value 1 — the reduced form of (k, k), whose stored numerator and
denominator are both 1 — i.e. precision 1 for every such order. -/
theorem C3_identical_hypothesis_precision_one (references : List (List α))
    (hypothesis : List α) (n : ℕ) (hmem : hypothesis ∈ references)
    (hn : 1 ≤ n) (hlen : n ≤ hypothesis.length) :
    modified_precision references hypothesis n = some 1 := by
  have hne : references ≠ [] := List.ne_nil_of_mem hmem
  rw [modified_precision_of_ne_nil references hypothesis n hne]
  have hmap : ((ngramsList hypothesis n).dedup.map fun g =>
      min ((ngramsList hypothesis n).count g) (maxRefCount references n g)) =
      (ngramsList hypothesis n).dedup.map fun g => (ngramsList hypothesis n).count g := by
    apply List.map_congr_left
    intro g _
    apply min_eq_left
    exact le_foldr_max (List.mem_map_of_mem (fun r => (ngramsList r n).count g) hmem)
  rw [hmap, sum_map_count_dedup]
  have hlen1 : 1 ≤ (ngramsList hypothesis n).length := by
    rw [ngramsList_length hn]
    omega
  rw [max_eq_right hlen1]
  have hne0 : ((ngramsList hypothesis n).length : ℚ) ≠ 0 :=
    Nat.cast_ne_zero.2 (by omega)
  rw [div_self hne0]

/-- C3 witness: hypothesis `[0, 1]` equal to the reference, order 2 (one
bigram): precision 1. -/
theorem C3_witness :
    ([0, 1] : List ℕ) ∈ ([[0, 1]] : List (List ℕ)) ∧ 1 ≤ 2 ∧
      2 ≤ ([0, 1] : List ℕ).length ∧
      modified_precision ([[0, 1]] : List (List ℕ)) [0, 1] 2 = some 1 :=
  ⟨by simp, by norm_num, by decide,
    C3_identical_hypothesis_precision_one [[0, 1]] [0, 1] 2 (by simp) (by norm_num)
      (by decide)⟩

/-- C10: the `Fraction` returned by `modified_precision` is in lowest terms
(numerator and denominator coprime), and equals — as a rational value —
the raw pair (sum of clipped counts, max(1, number of hypothesis n-grams));
the stored fields are the reduced form of those raw sums. -/
theorem C10_fraction_in_lowest_terms (references : List (List α))
    (hypothesis : List α) (n : ℕ) (q : ℚ)
    (h : modified_precision references hypothesis n = some q) :
    q.num.natAbs.Coprime q.den ∧
      ∃ clipped, clipped_counts references hypothesis n = some clipped ∧
        q = ((clipped.sum : ℕ) : ℚ) /
          ((max 1 (ngramsList hypothesis n).length : ℕ) : ℚ) := by
  refine ⟨q.reduced, ?_⟩
  unfold modified_precision at h
  cases hc : clipped_counts references hypothesis n with
  | none =>
    rw [hc] at h
    exact Option.noConfusion h
  | some L =>
    rw [hc] at h
    exact ⟨L, rfl, (Option.some.inj h).symm⟩

/-- C10 witness: at reference `[0]`, hypothesis `[0]`, order 1 the returned
fraction 1/1 is coprime and is the reduced value of the raw sums. -/
theorem C10_witness :
    modified_precision ([[0]] : List (List ℕ)) [0] 1 = some 1 ∧
      ((1 : ℚ).num.natAbs.Coprime (1 : ℚ).den ∧
        ∃ clipped, clipped_counts ([[0]] : List (List ℕ)) [0] 1 = some clipped ∧
          (1 : ℚ) = ((clipped.sum : ℕ) : ℚ) /
            ((max 1 (ngramsList ([0] : List ℕ) 1).length : ℕ) : ℚ)) := by
  have hmp : modified_precision ([[0]] : List (List ℕ)) [0] 1 = some 1 := by
    rw [@modified_precision_eval ℕ _ [[0]] [0] 1 [1] 1 (by decide) (by decide)]
    norm_num
  exact ⟨hmp, C10_fraction_in_lowest_terms [[0]] [0] 1 1 hmp⟩

/-- C9 counterexample: with the EMPTY reference list and hypothesis `[0]`,
the score computation raises `KeyError` (`none`), but after appending the
unrelated segment `[1]` — which shares no n-gram of any considered order
with the hypothesis — it returns the score 0.  So appending an unrelated
segment does not leave the result unchanged for every references list. -/
theorem C9_counterexample :
    modified_bleu ([] : List (List ℕ)) [0] [(1 : ℝ)] = none ∧
      modified_bleu (([] : List (List ℕ)) ++ [[1]]) [0] [(1 : ℝ)] = some 0 ∧
      (∀ g ∈ ngramsList ([0] : List ℕ) 1, g ∉ ngramsList ([1] : List ℕ) 1) := by
  refine ⟨?_, ?_, by decide⟩
  · have h0 : modified_precision ([] : List (List ℕ)) [0] 1 = none := by decide
    have h : (List.range ([(1 : ℝ)] : List ℝ).length).mapM
        (fun i => modified_precision ([] : List (List ℕ)) [0] (i + 1)) = none := by
      rw [show List.range ([(1 : ℝ)] : List ℝ).length = [0] from rfl]
      simp [List.mapM, List.mapM.loop, h0]
    unfold modified_bleu
    rw [h]
  · have hmp : modified_precision (([] : List (List ℕ)) ++ [[1]]) [0] 1 = some 0 := by
      rw [@modified_precision_eval ℕ _ ([] ++ [[1]]) [0] 1 [0] 1 (by decide) (by decide)]
      norm_num
    exact modified_bleu_eq_zero_of_order1_num_zero ([] ++ [[1]]) [0] [(1 : ℝ)] 0 hmp rfl

/-- C9 amended: for a NONEMPTY references list, appending an extra segment
sharing no n-gram of any considered order with the hypothesis leaves the
`modified_bleu` result unchanged; and appending any segment can only raise
or keep equal the clipped-count numerator (the sum of the clipped counts)
of `modified_precision`, for every order at which it returns. -/
theorem C9_unrelated_segment_invariance (references : List (List α))
    (r : List α) (hypothesis : List α) (weights : List ℝ)
    (hne : references ≠ []) :
    ((∀ i ∈ List.range weights.length,
        ∀ g ∈ ngramsList hypothesis (i + 1), g ∉ ngramsList r (i + 1)) →
      modified_bleu (references ++ [r]) hypothesis weights =
        modified_bleu references hypothesis weights) ∧
    (∀ n L, clipped_counts references hypothesis n = some L →
      ∃ L', clipped_counts (references ++ [r]) hypothesis n = some L' ∧
        L.sum ≤ L'.sum) :=
  ⟨fun hns => modified_bleu_append_no_share references r hypothesis weights hne hns,
    fun n L h => clipped_counts_append_mono references r hypothesis n L h⟩

/-- C9 witness: reference `[0]`, hypothesis `[0]`, appended unrelated
segment `[5]`: the score is unchanged and the clipped numerator does not
decrease. -/
theorem C9_witness :
    modified_bleu (([[0]] : List (List ℕ)) ++ [[5]]) [0] [(1 : ℝ)] =
        modified_bleu ([[0]] : List (List ℕ)) [0] [(1 : ℝ)] ∧
      ∃ L', clipped_counts (([[0]] : List (List ℕ)) ++ [[5]]) [0] 1 = some L' ∧
        ([1] : List ℕ).sum ≤ L'.sum := by
  have h := C9_unrelated_segment_invariance ([[0]] : List (List ℕ)) [5] [0]
    [(1 : ℝ)] (by simp)
  exact ⟨h.1 (by decide), h.2 1 [1] (by decide)⟩

/-- C8: `get_information_value` fails with the "no reference data" error
exactly when the reference stream has not been configured (`None`); once a
reference is set it never raises that error. -/
theorem C8_error_iff_reference_unset (reference_data : Option (List Char))
    (words : List (List Char)) :
    get_information_value reference_data words =
        Except.error ("No reference data found") ↔ reference_data = none := by
  cases reference_data with
  | none => simp [get_information_value]
  | some reference => simp [get_information_value]

/-- C1 (code bug): at the failing input `words = ["z"]` against the
configured reference stream `"ab"` (length 2, not containing `"z"`), the
code returns `log2(0.1 / 3.1) = log2(1/31) < 0`, because it counts the FULL
n-gram in `k1` and the (n-1)-gram in `k2` — the reverse of its own
docstring.  The claim (and the docstring/spec) instead demand the positive
value `log2((0.1 + L) / 0.1)`. -/
theorem C1_information_value_sign_flipped :
    get_information_value (some ['a', 'b']) [['z']] =
        Except.ok (Real.logb 2 (((1 / 31 : ℚ) : ℝ))) ∧
      Real.logb 2 (((1 / 31 : ℚ) : ℝ)) < 0 ∧
      0 < Real.logb 2 ((((1 / 10 + 2) / (1 / 10) : ℚ) : ℝ)) := by
  refine ⟨?_, ?_, ?_⟩
  · have h1 : str_count (['a', 'b']) (List.intercalate ([' ']) [['z']]) = 0 := by decide
    have h2 : str_count (['a', 'b'])
        (List.intercalate ([' ']) ([['z']] : List (List Char)).dropLast) = 3 := by decide
    have h2' : str_count (['a', 'b']) (List.intercalate ([' ']) []) = 3 := by decide
    simp only [get_information_value]
    norm_num [h1, h2, h2']
  · have hcast : (((1 / 31 : ℚ)) : ℝ) = 1 / 31 := by norm_num
    rw [hcast]
    exact Real.logb_neg (by norm_num) (by norm_num) (by norm_num)
  · have hcast : ((((1 / 10 + 2) / (1 / 10) : ℚ)) : ℝ) = 21 := by norm_num
    rw [hcast]
    exact Real.logb_pos (by norm_num) (by norm_num)

example : ngramsList ([0, 1, 2] : List ℕ) 2 = [[0, 1], [1, 2]] := by decide

example : clipped_counts ([[0, 1]] : List (List ℕ)) [0, 1] 1 = some [1, 1] := by decide

example : clipped_counts ([] : List (List ℕ)) [0] 1 = none := by decide

example : clipped_counts ([] : List (List ℕ)) [] 1 = some [] := by decide

example : clipped_counts ([[1]] : List (List ℕ)) [0] 1 = some [0] := by decide

example : str_count ([Char.ofNat 97, Char.ofNat 98]) [] = 3 := by decide

example : str_count ([Char.ofNat 97, Char.ofNat 98]) ([Char.ofNat 122]) = 0 := by decide

end TextGen
